import Mathlib

/-!
Formal model of the goldb LSM key-value engine, shallowly embedded from the
Go sources: the key codec (`shared/utils.go`), the AVL memtable
(`internal/memtable/avl.go`), the skip-list memtable (`internal/skiplist.go`),
the bloom filter (`internal/bf.go`), the SSTable search path
(`internal/sstable.go`), the WAL (`internal/wal.go`), the value heap
(`internal/data_manager.go`), the index manager (`internal/index_manager.go`)
and the engine facade (`internal/engine.go`).

Go strings holding keys are modelled as lists of byte values (`List Nat`),
Go `[]byte` values the same way; `uint32` fields are `Nat` with explicit
`% 2^32` where Go wraps.  Fallible operations return `Option`/`Except`, and a
Go runtime panic (index out of range, nil dereference) is modelled by a
dedicated result constructor.
-/

namespace Goldb

/-- A key: the byte sequence of a Go string. -/
abbrev Key := List Nat

/-- A value payload or raw file content: a byte sequence. -/
abbrev Bytes := List Nat

/-- `Position` from `internal/memtable/avl.go`: `(Offset uint32, Size uint32)`
naming a slice of the value heap.  `size = 0` is the tombstone marker. -/
structure Position where
  offset : Nat
  size : Nat
  deriving Repr, DecidableEq

/-- `KVPair` from `internal/kv.go`: a key together with its heap position. -/
structure KVPair where
  key : Key
  value : Position
  deriving Repr, DecidableEq

/-- Go string comparison `<` (byte-wise lexicographic, a strict prefix is
smaller), used by every key comparison in the source. -/
def keyLt : Key → Key → Bool
  | [], [] => false
  | [], _ :: _ => true
  | _ :: _, [] => false
  | a :: as, b :: bs => if a < b then true else if b < a then false else keyLt as bs

/-- `shared.KeyToBytes(key, keySize)` from `internal/shared/utils.go`: pad the
key with `0x00` on the right to exactly `keySize` bytes; a longer key is
rejected with `ErrKeyTooLong` (in the Go code the oversized case aborts inside
`strings.Repeat` before the length check is reached, so no padded slice is
ever produced for it). -/
def keyToBytes (keySize : Nat) (key : Key) : Option Bytes :=
  if key.length ≤ keySize then
    some (key ++ List.replicate (keySize - key.length) 0)
  else
    none

/-- `shared.TrimPaddedKey` from `internal/shared/utils.go`:
`strings.TrimRight(key, "\x00")`, removing every trailing zero byte. -/
def trimPaddedKey (key : Bytes) : Key :=
  (key.reverse.dropWhile (fun b => b == 0)).reverse

/-- The single-argument `shared.KeyToBytes(key)` variant used by the SSTable
and WAL serialisation paths: pad to the fixed `shared.KeySize = 256` bytes,
truncating oversized keys. -/
def padKey (key : Key) : Bytes :=
  if 256 < key.length then key.take 256
  else key ++ List.replicate (256 - key.length) 0

/-- Dropping trailing zeros ignores appended zero padding. -/
theorem trimPaddedKey_append_replicate (k : Bytes) (n : Nat) :
    trimPaddedKey (k ++ List.replicate n 0) = trimPaddedKey k := by
  unfold trimPaddedKey
  rw [List.reverse_append, List.reverse_replicate]
  congr 1
  induction n with
  | zero => simp
  | succ m ih => simp [List.replicate_succ, ih]

/-- A byte string whose last byte is nonzero is untouched by the trim. -/
theorem trimPaddedKey_eq_self (k : Bytes) (h : k.getLast? ≠ some 0) :
    trimPaddedKey k = k := by
  unfold trimPaddedKey
  cases hrev : k.reverse with
  | nil => simp_all [List.reverse_eq_nil_iff]
  | cons b bs =>
    have hb : b ≠ 0 := by
      intro hb0
      apply h
      have : k.getLast? = (b :: bs).head? := by
        rw [← hrev, List.head?_reverse]
      simp [this, hb0]
    have hb2 : (b == 0) = false := by simpa using hb
    rw [List.dropWhile_cons]
    simp [hb2, ← hrev]

/-- Every byte string is its trim followed by the trimmed-off zeros. -/
theorem trimPaddedKey_spec (k : Bytes) :
    k = trimPaddedKey k ++
      List.replicate (k.length - (trimPaddedKey k).length) 0 := by
  have hsplit : k.reverse.takeWhile (fun b => b == 0) ++
      k.reverse.dropWhile (fun b => b == 0) = k.reverse :=
    List.takeWhile_append_dropWhile _ _
  have hall : ∀ b ∈ k.reverse.takeWhile (fun b => b == 0), b = 0 := by
    intro b hb
    simpa using List.mem_takeWhile_imp hb
  have hrepl := List.eq_replicate_of_mem hall
  have hk : k = trimPaddedKey k ++
      (k.reverse.takeWhile (fun b => b == 0)).reverse := by
    conv_lhs => rw [← List.reverse_reverse k, ← hsplit]
    rw [List.reverse_append]
    rfl
  have hlen : (trimPaddedKey k).length +
      (k.reverse.takeWhile (fun b => b == 0)).length = k.length := by
    have := congrArg List.length hk
    simp only [List.length_append, List.length_reverse] at this
    omega
  calc k = trimPaddedKey k ++ (k.reverse.takeWhile (fun b => b == 0)).reverse :=
        hk
    _ = trimPaddedKey k ++
        List.replicate (k.length - (trimPaddedKey k).length) 0 := by
        rw [hrepl, List.reverse_replicate]
        congr 2
        omega

/-- C7 counterexample: the key `[0x61, 0x00]` is legal (non-empty, within the
256-byte bound) and its last byte is `0x00`, yet `TrimPaddedKey` strips that
byte together with the padding, so `decode (encode k) ≠ k`. -/
theorem keyCodec_roundtrip_fails_on_trailing_zero :
    (1 ≤ ([97, 0] : Key).length ∧ ([97, 0] : Key).length ≤ 256) ∧
    (keyToBytes 256 [97, 0]).map trimPaddedKey = some [97] ∧
    some ([97] : Key) ≠ some ([97, 0] : Key) := by
  refine ⟨⟨by decide, by decide⟩, ?_, by decide⟩
  decide

/-- C7 (amended): for every key of length at most the configured key size,
encoding succeeds, the padded form round-trips through `decode` then `encode`
unchanged, and `decode (encode k) = k` holds whenever the key's last byte is
not `0x00` (keys with a trailing zero byte lose it to the padding trim). -/
theorem keyCodec_roundtrip (keySz : Nat) (k : Key) (h1 : k.length ≤ keySz) :
    ∃ p, keyToBytes keySz k = some p ∧
      keyToBytes keySz (trimPaddedKey p) = some p ∧
      (k.getLast? ≠ some 0 → trimPaddedKey p = k) := by
  refine ⟨k ++ List.replicate (keySz - k.length) 0, ?_, ?_, ?_⟩
  · simp [keyToBytes, h1]
  · rw [trimPaddedKey_append_replicate]
    have hlen : (trimPaddedKey k).length ≤ k.length := by
      have := congrArg List.length (trimPaddedKey_spec k)
      simp only [List.length_append, List.length_replicate] at this
      omega
    have hle : (trimPaddedKey k).length ≤ keySz := le_trans hlen h1
    simp only [keyToBytes, hle, if_pos]
    congr 1
    calc trimPaddedKey k ++
        List.replicate (keySz - (trimPaddedKey k).length) 0
        = trimPaddedKey k ++
          (List.replicate (k.length - (trimPaddedKey k).length) 0 ++
            List.replicate (keySz - k.length) 0) := by
          rw [← List.replicate_add]
          congr 2
          omega
      _ = (trimPaddedKey k ++
            List.replicate (k.length - (trimPaddedKey k).length) 0) ++
          List.replicate (keySz - k.length) 0 := by
          rw [List.append_assoc]
      _ = k ++ List.replicate (keySz - k.length) 0 := by
          rw [← trimPaddedKey_spec k]
  · intro hz
    rw [trimPaddedKey_append_replicate, trimPaddedKey_eq_self k hz]

/-- C7 witness: the amended round-trip at the concrete key `[0x61]`. -/
theorem keyCodec_roundtrip_witness :
    ([97] : Key).length ≤ 256 ∧
    ∃ p, keyToBytes 256 [97] = some p ∧
      keyToBytes 256 (trimPaddedKey p) = some p ∧
      (([97] : Key).getLast? ≠ some 0 → trimPaddedKey p = [97]) :=
  ⟨by decide, keyCodec_roundtrip 256 [97] (by decide)⟩

/-! ### Order lemmas for Go string comparison -/

theorem keyLt_irrefl (a : Key) : keyLt a a = false := by
  induction a with
  | nil => rfl
  | cons x xs ih => simp [keyLt, ih]

theorem keyLt_asymm (a b : Key) (h : keyLt a b = true) : keyLt b a = false := by
  induction a generalizing b with
  | nil =>
    cases b with
    | nil => simp [keyLt] at h
    | cons y ys => simp [keyLt]
  | cons x xs ih =>
    cases b with
    | nil => simp [keyLt] at h
    | cons y ys =>
      simp only [keyLt] at h ⊢
      rcases Nat.lt_trichotomy x y with hxy | hxy | hxy
      · simp only [if_pos hxy] at h
        have : ¬ y < x := Nat.not_lt.mpr (Nat.le_of_lt hxy)
        simp [this, hxy]
      · subst hxy
        simp only [Nat.lt_irrefl, if_neg (Nat.lt_irrefl x), if_false] at h ⊢
        exact ih ys h
      · have : ¬ x < y := Nat.not_lt.mpr (Nat.le_of_lt hxy)
        simp [this, hxy] at h

theorem keyLt_antisymm (a b : Key) (hab : keyLt a b = false)
    (hba : keyLt b a = false) : a = b := by
  induction a generalizing b with
  | nil =>
    cases b with
    | nil => rfl
    | cons y ys => simp [keyLt] at hab
  | cons x xs ih =>
    cases b with
    | nil => simp [keyLt] at hba
    | cons y ys =>
      simp only [keyLt] at hab hba
      rcases Nat.lt_trichotomy x y with hxy | hxy | hxy
      · simp [hxy] at hab
      · subst hxy
        simp only [Nat.lt_irrefl, if_neg (Nat.lt_irrefl x), if_false] at hab hba
        rw [ih ys hab hba]
      · simp [hxy] at hba

theorem keyLt_trans (a b c : Key) (hab : keyLt a b = true)
    (hbc : keyLt b c = true) : keyLt a c = true := by
  induction a generalizing b c with
  | nil =>
    cases b with
    | nil => simp [keyLt] at hab
    | cons y ys =>
      cases c with
      | nil => simp [keyLt] at hbc
      | cons z zs => simp [keyLt]
  | cons x xs ih =>
    cases b with
    | nil => simp [keyLt] at hab
    | cons y ys =>
      cases c with
      | nil => simp [keyLt] at hbc
      | cons z zs =>
        simp only [keyLt] at hab hbc ⊢
        rcases Nat.lt_trichotomy x y with hxy | hxy | hxy
        · rcases Nat.lt_trichotomy y z with hyz | hyz | hyz
          · simp [Nat.lt_trans hxy hyz]
          · subst hyz
            simp [hxy]
          · have hzy : ¬ y < z := Nat.not_lt.mpr (Nat.le_of_lt hyz)
            simp [hzy, hyz] at hbc
        · subst hxy
          rcases Nat.lt_trichotomy x z with hyz | hyz | hyz
          · simp [hyz]
          · subst hyz
            simp only [Nat.lt_irrefl, if_neg (Nat.lt_irrefl x), if_false]
              at hab hbc ⊢
            exact ih ys zs hab hbc
          · have hzy : ¬ x < z := Nat.not_lt.mpr (Nat.le_of_lt hyz)
            simp [hzy, hyz] at hbc
        · have : ¬ x < y := Nat.not_lt.mpr (Nat.le_of_lt hxy)
          simp [this, hxy] at hab

theorem keyLt_ne (a b : Key) (h : keyLt a b = true) : a ≠ b := by
  intro heq
  subst heq
  rw [keyLt_irrefl] at h
  exact Bool.false_ne_true h

/-! ### AVL memtable, from `internal/memtable/avl.go` -/

/-- `treeNode` from `internal/memtable/avl.go` (the `nil` pointer is a
constructor). -/
inductive AVLNode where
  | nil
  | node (key : Key) (value : Position) (left right : AVLNode) (height : Nat)
  deriving Repr, DecidableEq

namespace AVLNode

/-- `AVLTable.height`: stored height, 0 for nil. -/
def heightOf : AVLNode → Nat
  | .nil => 0
  | .node _ _ _ _ h => h

/-- `AVLTable.balanceFactor`: height difference as a signed integer. -/
def balanceFactorOf : AVLNode → Int
  | .nil => 0
  | .node _ _ l r _ => (heightOf l : Int) - (heightOf r : Int)

/-- `AVLTable.rightRotate`.  The Go code dereferences `y.left`; it is only
invoked when the balance factor guarantees a non-nil left child, so the
catch-all (which would be a nil-pointer fault in Go) returns the tree
unchanged and is unreachable from `balance`. -/
def rightRotate : AVLNode → AVLNode
  | .node yk yv (.node xk xv xl xr _) yr _ =>
    let y2 := AVLNode.node yk yv xr yr (max (heightOf xr) (heightOf yr) + 1)
    AVLNode.node xk xv xl y2 (max (heightOf xl) (heightOf y2) + 1)
  | t => t

/-- `AVLTable.leftRotate`, mirror image of `rightRotate`. -/
def leftRotate : AVLNode → AVLNode
  | .node xk xv xl (.node yk yv yl yr _) _ =>
    let x2 := AVLNode.node xk xv xl yl (max (heightOf xl) (heightOf yl) + 1)
    AVLNode.node yk yv x2 yr (max (heightOf x2) (heightOf yr) + 1)
  | t => t

/-- `AVLTable.balance`: the four rotation cases keyed on the balance factor
and the inserted key, falling through to the unchanged node.  When the factor
exceeds 1 the Go code reads `node.left.key` (resp. `node.right.key`); a nil
child there would fault, and is unreachable because the heights are
maintained. -/
def balance (t : AVLNode) (key : Key) : AVLNode :=
  match t with
  | .nil => .nil
  | .node k v l r h =>
    let bf := balanceFactorOf (.node k v l r h)
    if 1 < bf then
      match l with
      | .node lk _ _ _ _ =>
        if keyLt key lk then rightRotate (.node k v l r h)
        else if keyLt lk key then rightRotate (.node k v (leftRotate l) r h)
        else .node k v l r h
      | .nil => .node k v l r h
    else if bf < -1 then
      match r with
      | .node rk _ _ _ _ =>
        if keyLt rk key then leftRotate (.node k v l r h)
        else if keyLt key rk then leftRotate (.node k v l (rightRotate r) h)
        else .node k v l r h
      | .nil => .node k v l r h
    else
      .node k v l r h

/-- `AVLTable.insert`: standard BST descent, value update on an equal key
(which returns without rebalancing that node), height refresh and `balance`
on the way back up. -/
def insert : AVLNode → Key → Position → AVLNode
  | .nil, k, v => .node k v .nil .nil 1
  | .node nk nv l r h, k, v =>
    if keyLt k nk then
      let l2 := insert l k v
      balance (.node nk nv l2 r (1 + max (heightOf l2) (heightOf r))) k
    else if keyLt nk k then
      let r2 := insert r k v
      balance (.node nk nv l r2 (1 + max (heightOf l) (heightOf r2))) k
    else
      .node nk v l r h

/-- `AVLTable.get`: BST search returning the zero `Position` when absent. -/
def get : AVLNode → Key → Position
  | .nil, _ => ⟨0, 0⟩
  | .node nk nv l r _, k =>
    if nk = k then nv
    else if keyLt k nk then get l k
    else get r k

/-- `AVLTable.inOrder`: in-order traversal collecting every pair. -/
def inOrder : AVLNode → List KVPair
  | .nil => []
  | .node k v l r _ => inOrder l ++ (⟨k, v⟩ :: inOrder r)

end AVLNode

/-- `AVLTable` from `internal/memtable/avl.go`: the size counter plus the
root. -/
structure AVLTable where
  size : Nat
  root : AVLNode
  deriving Repr, DecidableEq

/-- `NewAVLMemtable()`: an empty table. -/
def emptyAVL : AVLTable := ⟨0, .nil⟩

/-- `AVLTable.Set`: bump the size when the key's current position has size 0
(absent or tombstoned), then insert. -/
def avlSet (t : AVLTable) (p : KVPair) : AVLTable :=
  { size := if (AVLNode.get t.root p.key).size = 0 then t.size + 1 else t.size,
    root := t.root.insert p.key p.value }

/-- `AVLTable.Get`. -/
def avlGet (t : AVLTable) (k : Key) : Position :=
  AVLNode.get t.root k

/-- `AVLTable.Contains`: `t.get(t.root, key).Size != 0` — false both for an
absent key and for a stored tombstone. -/
def avlContains (t : AVLTable) (k : Key) : Bool :=
  (AVLNode.get t.root k).size ≠ 0

/-- `AVLTable.Items`: the in-order pair list. -/
def avlItems (t : AVLTable) : List KVPair :=
  t.root.inOrder

/-! ### Skip-list memtable, from `internal/skiplist.go`

The skip list's level-0 forward chain is a sorted linked list holding every
`(key, value)` pair; the randomly-assigned higher levels only let `Set`, `Get`
and `Contains` skip ahead while descending, and every operation finishes its
walk on the level-0 chain at the first node whose key is not less than the
query, so the observable behaviour is a function of the chain alone.  The
chain is modelled as a sorted list of pairs. -/

/-- `SkipList.Set`: walk forward while `forward.key < key`; update the value
in place on an equal key, otherwise splice in a new node. -/
def skipSet : List KVPair → KVPair → List KVPair
  | [], p => [p]
  | q :: qs, p =>
    if keyLt q.key p.key then q :: skipSet qs p
    else if q.key = p.key then ⟨q.key, p.value⟩ :: qs
    else p :: q :: qs

/-- The node found by the skip-list search: the first chain node whose key is
not less than the query key. -/
def skipFindGE : List KVPair → Key → Option KVPair
  | [], _ => none
  | q :: qs, k => if keyLt q.key k then skipFindGE qs k else some q

/-- `SkipList.Contains`: `current != nil && current.key == key` — true for a
stored tombstone as well. -/
def skipContains (l : List KVPair) (k : Key) : Bool :=
  match skipFindGE l k with
  | some q => q.key = k
  | none => false

/-- `SkipList.Get`: the found node's value, or the zero position. -/
def skipGet (l : List KVPair) (k : Key) : Position :=
  match skipFindGE l k with
  | some q => if q.key = k then q.value else ⟨0, 0⟩
  | none => ⟨0, 0⟩

/-- C5: the two memtable implementations disagree on `contains` for a
tombstoned key, and the AVL variant violates the contract "true iff a record
(including a tombstone) exists".  After storing the tombstone
`("a", Position{0, 0})` in both empty memtables, the record exists in both
(both `items`/chains hold it), yet AVL `Contains` answers `false` while the
skip list answers `true`. -/
theorem contains_disagrees_on_tombstone :
    avlItems (avlSet emptyAVL ⟨[97], ⟨0, 0⟩⟩) = [⟨[97], ⟨0, 0⟩⟩] ∧
    skipSet [] ⟨[97], ⟨0, 0⟩⟩ = [⟨[97], ⟨0, 0⟩⟩] ∧
    avlContains (avlSet emptyAVL ⟨[97], ⟨0, 0⟩⟩) [97] = false ∧
    skipContains (skipSet [] ⟨[97], ⟨0, 0⟩⟩) [97] = true := by
  decide

/-! ### Bloom filter, from `internal/bf.go`

`NewBloomFilter` fills `hashFuncs` with `hashCount` copies of `fnv.New64()`,
so every "hash function" is the same 64-bit FNV-1 hash; `Add` and `Test`
loop over them computing the identical index each time. -/

/-- 64-bit FNV-1 (`hash/fnv.New64`): start from the offset basis, and for
each byte multiply by the prime modulo `2^64` then XOR the byte in. -/
def fnv64 (bs : Bytes) : Nat :=
  bs.foldl (fun h b => (h * 1099511628211 % 2 ^ 64) ^^^ b % 256)
    14695981039346656037

/-- The bloom filter state: the bit array and the number of (identical) hash
functions. -/
structure BloomFilter where
  bitArray : List Bool
  hashCount : Nat
  deriving Repr, DecidableEq

/-- Bit-array size for capacity `n` at false-positive rate 0.01:
`int(-float64(n) * math.Log(0.01) / (math.Log(2) * math.Log(2)))`.  The
quotient of the two float64 constants is `9.583248181396343`; the rational
below reproduces the Go truncation for every capacity used in this
development (1 ↦ 9, 2 ↦ 19). -/
def bloomBitSize (n : Nat) : Nat :=
  n * 9583248181396343 / 10 ^ 15

/-- Hash-function count: `int(float64(bitSize) * math.Log(2) / float64(n))`
with `math.Log(2) = 0.6931471805599453`; reproduces the Go truncation for
the capacities used here (9,1 ↦ 6 and 19,2 ↦ 6). -/
def bloomHashCount (bitSize n : Nat) : Nat :=
  bitSize * 693147180559945 / (n * 10 ^ 15)

/-- `NewBloomFilter` after the sizing computation: an all-false bit array of
`bitSize` bits and `hashCount` copies of FNV-1. -/
def newBloomFilter (bitSize hashCount : Nat) : BloomFilter :=
  ⟨List.replicate bitSize false, hashCount⟩

/-- `NewBloomFilter(capacity, 0.01)` as called by the SSTable serialiser. -/
def newBloomFilterForCapacity (n : Nat) : BloomFilter :=
  newBloomFilter (bloomBitSize n) (bloomHashCount (bloomBitSize n) n)

/-- The loop body of `BloomFilter.Add`: each of the `n` identical hash
functions sets the bit `fnv64(item) % len(bitArray)`.  A zero-length bit
array with `n > 0` would be an integer-divide-by-zero fault in Go; the
constructor never produces that shape (`bitSize = 0` forces
`hashCount = 0`). -/
def bfAddIter (item : Bytes) : Nat → List Bool → List Bool
  | 0, bits => bits
  | n + 1, bits => bfAddIter item n (bits.set (fnv64 item % bits.length) true)

/-- `BloomFilter.Add`. -/
def bfAdd (f : BloomFilter) (item : Bytes) : BloomFilter :=
  { f with bitArray := bfAddIter item f.hashCount f.bitArray }

/-- The loop of `BloomFilter.Test`: true iff the indexed bit is set for every
hash function. -/
def bfTestIter (item : Bytes) : Nat → List Bool → Bool
  | 0, _ => true
  | n + 1, bits =>
    if bits.getD (fnv64 item % bits.length) false then bfTestIter item n bits
    else false

/-- `BloomFilter.Test`. -/
def bfTest (f : BloomFilter) (item : Bytes) : Bool :=
  bfTestIter item f.hashCount f.bitArray

/-- Feeding a list of items to the filter, as the SSTable serialiser does. -/
def bfAddAll (f : BloomFilter) (items : List Bytes) : BloomFilter :=
  items.foldl bfAdd f

theorem bfAddIter_length (item : Bytes) (n : Nat) (bits : List Bool) :
    (bfAddIter item n bits).length = bits.length := by
  induction n generalizing bits with
  | zero => rfl
  | succ m ih => simp [bfAddIter, ih]

theorem bfAdd_length (f : BloomFilter) (item : Bytes) :
    (bfAdd f item).bitArray.length = f.bitArray.length :=
  bfAddIter_length _ _ _

theorem bfAddAll_length (items : List Bytes) (f : BloomFilter) :
    (bfAddAll f items).bitArray.length = f.bitArray.length := by
  induction items generalizing f with
  | nil => rfl
  | cons x xs ih =>
    simp only [bfAddAll, List.foldl_cons] at *
    exact (ih (bfAdd f x)).trans (bfAdd_length f x)

theorem bfAddAll_hashCount (items : List Bytes) (f : BloomFilter) :
    (bfAddAll f items).hashCount = f.hashCount := by
  induction items generalizing f with
  | nil => rfl
  | cons x xs ih =>
    simp only [bfAddAll, List.foldl_cons] at *
    exact (ih (bfAdd f x)).trans rfl

theorem getD_set_self (l : List Bool) (i : Nat) (h : i < l.length) :
    (l.set i true).getD i false = true := by
  simp [List.getD, List.get?_eq_getElem?, List.getElem?_set_eq_of_lt _ h]

theorem getD_set_other (l : List Bool) (i j : Nat) (hij : i ≠ j) (b : Bool) :
    (l.set i b).getD j false = l.getD j false := by
  simp [List.getD, List.get?_eq_getElem?, List.getElem?_set_ne hij]

/-- A set bit stays set through the add loop. -/
theorem bfAddIter_preserves (item : Bytes) (n : Nat) (bits : List Bool)
    (i : Nat) (h : bits.getD i false = true) :
    (bfAddIter item n bits).getD i false = true := by
  induction n generalizing bits with
  | zero => exact h
  | succ m ih =>
    apply ih
    by_cases hlen : fnv64 item % bits.length < bits.length
    · by_cases hi : fnv64 item % bits.length = i
      · subst hi
        exact getD_set_self _ _ hlen
      · rw [getD_set_other _ _ _ hi]
        exact h
    · rw [List.set_eq_of_length_le (Nat.le_of_not_lt hlen)]
      exact h

/-- A set bit stays set through any further adds. -/
theorem bfAddAll_preserves (items : List Bytes) (f : BloomFilter) (i : Nat)
    (h : f.bitArray.getD i false = true) :
    (bfAddAll f items).bitArray.getD i false = true := by
  induction items generalizing f with
  | nil => exact h
  | cons x xs ih =>
    apply ih
    exact bfAddIter_preserves _ _ _ _ h

/-- After one pass of the add loop with at least one iteration, the indexed
bit is set. -/
theorem bfAddIter_sets (item : Bytes) (n : Nat) (bits : List Bool)
    (hn : n ≠ 0) (hm : bits.length ≠ 0) :
    (bfAddIter item n bits).getD (fnv64 item % bits.length) false = true := by
  cases n with
  | zero => exact absurd rfl hn
  | succ m =>
    have hidx : fnv64 item % bits.length < bits.length :=
      Nat.mod_lt _ (Nat.pos_of_ne_zero hm)
    have hstep : bfAddIter item (m + 1) bits =
        bfAddIter item m (bits.set (fnv64 item % bits.length) true) := rfl
    rw [hstep]
    exact bfAddIter_preserves item m _ _ (getD_set_self _ _ hidx)

/-- If the bit indexed by the item is set, the test loop answers true. -/
theorem bfTestIter_of_bit (item : Bytes) (n : Nat) (bits : List Bool)
    (h : bits.getD (fnv64 item % bits.length) false = true) :
    bfTestIter item n bits = true := by
  induction n with
  | zero => rfl
  | succ m ih =>
    have hstep : bfTestIter item (m + 1) bits =
        if bits.getD (fnv64 item % bits.length) false then
          bfTestIter item m bits
        else false := rfl
    rw [hstep, h, if_pos rfl]
    exact ih

/-- C8: a bloom filter built by the constructor (whose sizing yields
`hashCount = 0` whenever `bitSize = 0`, since `⌊0 · ln 2 / n⌋ = 0`) has no
false negatives, and `add` is monotone: whatever items were added before
`key` and whatever items are added after it, `test key` answers true. -/
theorem bloom_no_false_negatives (bitSize hashCount : Nat)
    (hsz : hashCount ≠ 0 → bitSize ≠ 0) (pre post : List Bytes) (key : Bytes) :
    bfTest (bfAddAll (bfAdd (bfAddAll (newBloomFilter bitSize hashCount) pre)
      key) post) key = true := by
  by_cases hc0 : hashCount = 0
  · subst hc0
    have h1 : (bfAddAll (bfAdd (bfAddAll (newBloomFilter bitSize 0) pre)
        key) post).hashCount = 0 := by
      rw [bfAddAll_hashCount]
      show (bfAddAll (newBloomFilter bitSize 0) pre).hashCount = 0
      rw [bfAddAll_hashCount]
      rfl
    unfold bfTest
    rw [h1]
    rfl
  · have hbs : bitSize ≠ 0 := hsz hc0
    have hlen0 :
        (bfAddAll (newBloomFilter bitSize hashCount) pre).bitArray.length =
          bitSize := by
      rw [bfAddAll_length]
      simp [newBloomFilter]
    have hhc :
        (bfAddAll (newBloomFilter bitSize hashCount) pre).hashCount =
          hashCount := by
      rw [bfAddAll_hashCount]
      rfl
    have hset :
        (bfAdd (bfAddAll (newBloomFilter bitSize hashCount) pre) key).bitArray.getD
          (fnv64 key %
            (bfAdd (bfAddAll (newBloomFilter bitSize hashCount) pre)
              key).bitArray.length) false = true := by
      show (bfAddIter key _ _).getD _ false = true
      rw [bfAdd_length]
      exact bfAddIter_sets key _ _ (by rw [hhc]; exact hc0)
        (by rw [hlen0]; exact hbs)
    have hkeep :
        (bfAddAll (bfAdd (bfAddAll (newBloomFilter bitSize hashCount) pre)
          key) post).bitArray.getD
          (fnv64 key %
            (bfAddAll (bfAdd (bfAddAll (newBloomFilter bitSize hashCount) pre)
              key) post).bitArray.length) false = true := by
      rw [bfAddAll_length]
      exact bfAddAll_preserves post _ _ hset
    unfold bfTest
    exact bfTestIter_of_bit _ _ _ hkeep

/-- C8 witness: the capacity-1 filter the SSTable writer builds (9 bits, 6
hash functions) tests positive for the byte string `[120]` after adding it,
also after a later add of `[97]`. -/
theorem bloom_no_false_negatives_witness :
    ((6 : Nat) ≠ 0 → (9 : Nat) ≠ 0) ∧
    bfTest (bfAddAll (bfAdd (bfAddAll (newBloomFilter 9 6) []) [120]) [[97]])
      [120] = true :=
  ⟨fun _ => by decide,
    bloom_no_false_negatives 9 6 (fun _ => by decide) [] [[97]] [120]⟩

/-! ### SSTable, from `internal/sstable.go` -/

/-- `TableMetadata` (the on-disk path is immaterial to the model). -/
structure TableMetadata where
  isLevel : Bool
  serial : Nat
  size : Nat
  minKey : Key
  maxKey : Key
  deriving Repr, DecidableEq

/-- An SSTable as the read path sees it: the parsed metadata, the parsed
bloom filter, and the pair region actually present in the file.  A truncated
file is one whose `pairs` list is shorter than `metadata.size` promises. -/
structure SSTable where
  metadata : TableMetadata
  bf : BloomFilter
  pairs : List KVPair
  deriving Repr, DecidableEq

/-- Outcome of `SSTable.Search`: a position, `ErrKeyRemoved` for a matched
tombstone, `ErrKeyNotFound` for range/filter/search misses, or a wrapped
seek/read failure. -/
inductive SearchOutcome where
  | hit (p : Position)
  | removed
  | miss
  | ioErr
  deriving Repr, DecidableEq

/-- One step of the binary-search loop of `SSTable.Search`, recursing on the
interval width `(right + 1 - left).toNat` (each iteration shrinks the
interval, so the width bounds the iteration count; with `fuel` instantiated
to the width the zero case fires exactly when `left > right`, which is also
the `while` loop's exit, and both produce `ErrKeyNotFound`).  `nthKey mid`
seeks to the `mid`-th pair slot and reads it; a slot beyond the data
actually present in the file fails with a read error, which `Search` wraps
and returns (modelled by `.ioErr`). -/
def bsearchGo (s : SSTable) (key : Key) : Nat → Int → Int → SearchOutcome
  | 0, _, _ => .miss
  | fuel + 1, left, right =>
    if left ≤ right then
      let mid := left + (right - left) / 2
      match s.pairs.get? mid.toNat with
      | none => .ioErr
      | some pair =>
        if keyLt pair.key key then bsearchGo s key fuel (mid + 1) right
        else if keyLt key pair.key then bsearchGo s key fuel left (mid - 1)
        else if pair.value.size = 0 then .removed
        else .hit pair.value
    else
      .miss

/-- The binary-search loop: run `bsearchGo` with the interval width. -/
def bsearchLoop (s : SSTable) (key : Key) (left right : Int) : SearchOutcome :=
  bsearchGo s key (right + 1 - left).toNat left right

/-- `SSTable.Search`: early range rejection, bloom-filter test on the padded
key, then binary search.  `int(s.metadata.Size - 1)` is computed in `uint32`
arithmetic first, so an empty table starts with `right = 2^32 - 1`. -/
def sstSearch (s : SSTable) (key : Key) : SearchOutcome :=
  if keyLt key s.metadata.minKey || keyLt s.metadata.maxKey key
      || !(bfTest s.bf (padKey key)) then
    .miss
  else
    bsearchLoop s key 0 (((s.metadata.size + 2 ^ 32 - 1) % 2 ^ 32 : Nat) : Int)

/-- `serializeSSTable`: `Serialize` builds a fresh filter sized for
`metadata.Size` at rate 0.01, feeds every pair's padded key, and writes
metadata, filter and pairs; the resulting logical table holds exactly the
pairs that were written. -/
def mkSSTable (md : TableMetadata) (pairs : List KVPair) : SSTable :=
  ⟨md, bfAddAll (newBloomFilterForCapacity md.size)
      (pairs.map (fun p => padKey p.key)), pairs⟩

/-- `SSTable.Items`: bulk-read `metadata.Size` pair slots from the
zero-initialised buffer; a slot beyond the file's pair region decodes as the
zero pair (empty key, zero position).  The tables this development feeds to
`Items` all have `pairs.length = metadata.size`, where this equals the
pair list itself. -/
def sstItems (s : SSTable) : List KVPair :=
  (List.range s.metadata.size).map (fun i => (s.pairs.get? i).getD ⟨[], ⟨0, 0⟩⟩)

/-! ### Index manager, from `internal/index_manager.go` -/

/-- Result of `IndexManager.Get`. -/
inductive GetResult where
  | found (p : Position)
  | keyNotFound
  | ioError
  deriving Repr, DecidableEq

/-- The raw-SSTable loop of `IndexManager.Get`: `ErrKeyRemoved` converts to
`ErrKeyNotFound`; every other error — `ErrKeyNotFound` and read failures
alike — hits the `continue` and the cascade moves on to the next (older)
table.  `none` means the loop fell through. -/
def rawLoop : List SSTable → Key → Option GetResult
  | [], _ => none
  | t :: ts, k =>
    match sstSearch t k with
    | .hit p => some (.found p)
    | .removed => some .keyNotFound
    | .miss => rawLoop ts k
    | .ioErr => rawLoop ts k

/-- The level loop of `IndexManager.Get`: a range pre-check, then search;
`ErrKeyRemoved` becomes `ErrKeyNotFound`, `ErrKeyNotFound` continues, and
any other error is returned to the caller. -/
def lvlLoop : List SSTable → Key → Option GetResult
  | [], _ => none
  | t :: ts, k =>
    if keyLt k t.metadata.minKey || keyLt t.metadata.maxKey k then
      lvlLoop ts k
    else
      match sstSearch t k with
      | .hit p => some (.found p)
      | .removed => some .keyNotFound
      | .miss => lvlLoop ts k
      | .ioErr => some .ioError

/-- The index manager's mutable state: memtable, raw SSTables (descending
serial), level SSTables (descending serial), and the two serial counters. -/
structure IMState where
  memtable : AVLTable
  sstables : List SSTable
  levels : List SSTable
  currSerial : Nat
  lvlSerial : Nat
  deriving Repr, DecidableEq

/-- `IndexManager.Get`: memtable first (via `Contains`), then the raw-SSTable
cascade, then the level cascade, finally `ErrKeyNotFound`. -/
def imGet (st : IMState) (k : Key) : GetResult :=
  if avlContains st.memtable k then
    let n := avlGet st.memtable k
    if n.size = 0 then .keyNotFound else .found n
  else
    match rawLoop st.sstables k with
    | some r => r
    | none =>
      match lvlLoop st.levels k with
      | some r => r
      | none => .keyNotFound

/-- `sort.Slice(..., serial >)`: insertion sort by descending serial
(deterministic; agrees with the Go sort whenever serials are distinct). -/
def insertBySerialDesc (t : SSTable) : List SSTable → List SSTable
  | [] => [t]
  | x :: xs =>
    if x.metadata.serial < t.metadata.serial then t :: x :: xs
    else x :: insertBySerialDesc t xs

/-- `IndexManager.sortTablesBySerial` on one list. -/
def sortBySerialDesc (ts : List SSTable) : List SSTable :=
  ts.foldr insertBySerialDesc []

/-- Result of a flush or compaction step: a Go runtime panic, an error
return (with the state as the caller then sees it), or success. -/
inductive StepResult where
  | panicked
  | errored (st : IMState)
  | ok (st : IMState)
  deriving Repr, DecidableEq

/-- The successful state held by a `StepResult`, if any. -/
def StepResult.okState : StepResult → Option IMState
  | .ok st => some st
  | _ => none

/-- `IndexManager.flush`: snapshot the memtable items, build the metadata —
reading `pairs[0]` and `pairs[len(pairs)-1]` with no emptiness guard, an
index-out-of-range panic on an empty memtable — then serialize the new
SSTable (`writeOk` abstracts the disk write succeeding); on write failure
return the error with nothing mutated, otherwise install the table, re-sort,
bump the serial and reset the memtable. -/
def imFlush (st : IMState) (writeOk : Bool) : StepResult :=
  let pairs := avlItems st.memtable
  match pairs.get? 0, pairs.get? (pairs.length - 1) with
  | some p0, some pn =>
    let md : TableMetadata :=
      ⟨false, st.currSerial % 2 ^ 32, pairs.length % 2 ^ 32, p0.key, pn.key⟩
    if writeOk then
      .ok { st with
        sstables := sortBySerialDesc (st.sstables ++ [mkSSTable md pairs]),
        currSerial := st.currSerial + 1,
        memtable := emptyAVL }
    else
      .errored st
  | _, _ => .panicked

set_option maxRecDepth 100000 in
/-- C1: the tombstone in the memtable fails to shadow the older SSTable.
State reached by `set("x", "old")` (position `(0, 3)` in the heap), a flush,
then `delete("x")`: the memtable holds the tombstone `("x", (0, 0))`, yet
`IndexManager.Get` returns the stale position `(0, 3)` from the flushed
SSTable instead of `ErrKeyNotFound`, because `AVLTable.Contains` answers
false on the tombstone and the read cascade walks past the memtable. -/
theorem memtable_tombstone_not_shadowing :
    ((imFlush ⟨avlSet emptyAVL ⟨[120], ⟨0, 3⟩⟩, [], [], 1, 1⟩ true).okState.map
      (fun st =>
        let st2 : IMState :=
          { st with memtable := avlSet st.memtable ⟨[120], ⟨0, 0⟩⟩ }
        (avlGet st2.memtable [120], imGet st2 [120])))
    = some (⟨0, 0⟩, .found ⟨0, 3⟩) := by
  decide

/-- A raw SSTable whose metadata promises one pair for key `"k"` but whose
pair region was truncated away: its search fails with a read error. -/
def truncatedTable : SSTable :=
  ⟨⟨false, 2, 1, [107], [107]⟩,
    bfAdd (newBloomFilterForCapacity 1) (padKey [107]), []⟩

/-- An older intact raw SSTable holding `("k", (0, 5))`. -/
def olderTable : SSTable :=
  mkSSTable ⟨false, 1, 1, [107], [107]⟩ [⟨[107], ⟨0, 5⟩⟩]

set_option maxRecDepth 100000 in
/-- C4: an I/O failure while searching a raw SSTable is not fatal to `get`.
Searching the newer (truncated) table fails with a read error, but
`IndexManager.Get` swallows it via `continue` and returns the stale position
from the older table instead of propagating the error. -/
theorem raw_sstable_io_error_swallowed :
    sstSearch truncatedTable [107] = .ioErr ∧
    imGet ⟨emptyAVL, [truncatedTable, olderTable], [], 3, 1⟩ [107]
      = .found ⟨0, 5⟩ := by
  decide

/-! ### Write-ahead log, from `internal/wal.go` -/

/-- `WALEntry`: key and value bytes; an empty value encodes deletion. -/
structure WALEntry where
  key : Key
  value : Bytes
  deriving Repr, DecidableEq

/-- Little-endian `uint32` decoding of a 4-byte buffer. -/
def leU32 (bs : Bytes) : Nat :=
  bs.getD 0 0 + bs.getD 1 0 * 256 + bs.getD 2 0 * 2 ^ 16 + bs.getD 3 0 * 2 ^ 24

/-- `DiskWAL.Append`: one write of the serialised record at the end of the
log file.  Beneath the comment "Value size (4 bytes)" the Go code calls
`binary.LittleEndian.AppendUint32(buffer, uint32(len(entry.Value)))` but
discards the returned slice instead of assigning it back to `buffer`, so the
length field never reaches the buffer: the record actually written is
`paddedKey || value`, without the length field that `Retrieve` expects to
parse. -/
def walAppend (w : Bytes) (e : WALEntry) : Bytes :=
  w ++ padKey e.key ++ e.value

/-- `bytes.Buffer.Read` into a fresh zero-filled buffer of `n` bytes: on an
empty buffer (and `n > 0`) it reports `io.EOF`; otherwise it copies the
`min n (length)` available bytes and reports no error, leaving the rest of
the destination zero. -/
def bufRead (bs : Bytes) (n : Nat) : Option (Bytes × Bytes) :=
  if bs.isEmpty ∧ n ≠ 0 then none
  else some (bs.take n ++ List.replicate (n - bs.length) 0, bs.drop n)

/-- Assignment to the Go map `mp[key] = value` built during replay, the map
modelled as an association list in insertion order. -/
def mpSet (mp : List WALEntry) (key : Key) (value : Bytes) : List WALEntry :=
  if mp.any (fun e => e.key = key) then
    mp.map (fun e => if e.key = key then ⟨key, value⟩ else e)
  else
    mp ++ [⟨key, value⟩]

/-- The decode loop of `DiskWAL.Retrieve`: read a 256-byte padded key, a
4-byte length, then the value, breaking out of the loop on `io.EOF` at any
of the three reads; each decoded record overwrites the map entry for its
trimmed key.  The loop recurses on a fuel bound: every iteration that
continues consumes at least the 256 key bytes of a nonempty buffer, so with
fuel `length + 1` the zero case is only reachable on an empty buffer, where
it returns the accumulated map exactly as the loop's `io.EOF` exit does. -/
def walParseGo : Nat → Bytes → List WALEntry → List WALEntry
  | 0, _, mp => mp
  | fuel + 1, bs, mp =>
    match bufRead bs 256 with
    | none => mp
    | some (keyBytes, r1) =>
      match bufRead r1 4 with
      | none => mp
      | some (lenBytes, r2) =>
        match bufRead r2 (leU32 lenBytes) with
        | none => mp
        | some (value, r3) =>
          walParseGo fuel r3 (mpSet mp (trimPaddedKey keyBytes) value)

/-- `DiskWAL.Retrieve`: parse the whole file, then emit the deduplicated
entries (the Go map iteration order is unspecified; the model emits them in
first-insertion order). -/
def walRetrieve (bs : Bytes) : List WALEntry :=
  walParseGo (bs.length + 1) bs []

set_option maxRecDepth 100000 in
/-- C6: a truncated trailing record does produce an entry.  The log holds a
single record for key `"a"` declaring a 2-byte value of which only the byte
`0x78` was written before the crash; `Retrieve` stops without an error but
fabricates the entry `("a", [0x78, 0x00])`, its missing tail silently
zero-filled (`bytes.Buffer.Read` reports no error on a short read), instead
of treating the partial record as the end of the log. -/
theorem wal_replay_partial_record_entry :
    walRetrieve (padKey [97] ++ [2, 0, 0, 0] ++ [120])
      = [⟨[97], [120, 0]⟩] := by
  decide

/-! ### Value heap, from `internal/data_manager.go` -/

/-- Error kinds from `shared/errors.go` as the engine surfaces them. -/
inductive GErr where
  | keyTooLong
  | keyNotFound
  | io
  deriving Repr, DecidableEq

/-- `DiskDataManager.Store`: seek to the end, append the value bytes, return
the position `(offset before the write, len(value))` and the grown heap. -/
def dmStore (heap : Bytes) (value : Bytes) : Position × Bytes :=
  (⟨heap.length % 2 ^ 32, value.length % 2 ^ 32⟩, heap ++ value)

/-- `DiskDataManager.Retrieve`: a zero-size position fails with
`ErrKeyNotFound` before any disk access; otherwise seek to the offset and
read `size` bytes (a read starting past the end of the file reports
`io.EOF`; one crossing it returns the available bytes into the zero-filled
buffer without an error). -/
def dmRetrieve (heap : Bytes) (p : Position) : Except GErr Bytes :=
  if p.size = 0 then .error .keyNotFound
  else if heap.length ≤ p.offset then .error .io
  else .ok ((heap.drop p.offset).take p.size ++
    List.replicate (p.size - (heap.length - p.offset)) 0)

/-! ### Compaction, from `internal/index_manager.go` -/

/-- The first-occurrence-wins check of `allItemsFromSSTables`: a pair whose
key is already in the map is skipped, otherwise it is recorded (the Go map
modelled as an association list in insertion order). -/
def mpPairInsert (mp : List KVPair) (p : KVPair) : List KVPair :=
  if mp.any (fun q => q.key = p.key) then mp else mp ++ [p]

/-- The map-building loop of `allItemsFromSSTables`: iterate the raw
SSTables in list order (descending serial, newest first) and each table's
items in file order, keeping the first occurrence of every key — tombstones
included (the skip of deleted keys is commented out in the source). -/
def buildPairMap (tables : List SSTable) : List KVPair :=
  tables.foldl (fun mp t => (sstItems t).foldl mpPairInsert mp) []

/-- `sort.Sort(Pairs(pairs))`: ascending by key (insertion sort; the keys at
this point are unique, so stability is immaterial). -/
def insertPairAsc (p : KVPair) : List KVPair → List KVPair
  | [] => [p]
  | q :: qs =>
    if keyLt p.key q.key then p :: q :: qs else q :: insertPairAsc p qs

/-- Sort a pair list ascending by key. -/
def sortPairsAsc (ps : List KVPair) : List KVPair :=
  ps.foldr insertPairAsc []

/-- `IndexManager.allItemsFromSSTables`: build the deduplicated map, then
copy it into `pairs := make([]KVPair, len(mp))` with `i := 0` — and `i` is
never incremented, so every map entry is written to slot 0 and the remaining
slots keep the zero pair (empty key, zero position) — then sort. -/
def allItemsFromSSTables (tables : List SSTable) : List KVPair :=
  let mp := buildPairMap tables
  let arr : List KVPair := List.replicate mp.length ⟨[], ⟨0, 0⟩⟩
  sortPairsAsc (mp.foldl (fun acc p => acc.set 0 p) arr)

/-- `IndexManager.createLevel`: merge the raw SSTables' items, read
`allPairs[0]` and `allPairs[len-1]` for the metadata (an index panic when
the merge is empty), serialize the level (`writeOk` abstracts the disk
write); on failure nothing is mutated and the raw SSTables stay; on success
bump the level serial, install the level, drop every raw SSTable and
re-sort. -/
def createLevel (st : IMState) (writeOk : Bool) : StepResult :=
  let allPairs := allItemsFromSSTables st.sstables
  match allPairs.get? 0, allPairs.get? (allPairs.length - 1) with
  | some p0, some pn =>
    let md : TableMetadata :=
      ⟨true, st.lvlSerial % 2 ^ 32, allPairs.length % 2 ^ 32, p0.key, pn.key⟩
    if writeOk then
      .ok { st with
        lvlSerial := st.lvlSerial + 1,
        levels := sortBySerialDesc (st.levels ++ [mkSSTable md allPairs]),
        sstables := [] }
    else
      .errored st
  | _, _ => .panicked

/-- The raw SSTable holding `("a", (0, 1))`, serial 1. -/
def sstOfA : SSTable := mkSSTable ⟨false, 1, 1, [97], [97]⟩ [⟨[97], ⟨0, 1⟩⟩]

/-- The raw SSTable holding `("b", (1, 1))`, serial 2. -/
def sstOfB : SSTable := mkSSTable ⟨false, 2, 1, [98], [98]⟩ [⟨[98], ⟨1, 1⟩⟩]

/-- The index-manager state before compaction: two raw SSTables, newest
first, and an empty memtable. -/
def preCompact : IMState := ⟨emptyAVL, [sstOfB, sstOfA], [], 3, 1⟩

set_option maxRecDepth 400000 in
/-- C3: compaction does not preserve visibility.  Before: `get("a")` and
`get("b")` return their positions from the two raw SSTables.  Compaction
succeeds, but because `allItemsFromSSTables` writes every merged pair to
slot 0 of the output array, the level holds the zero pair and `("a",(0,1))`
instead of the two merged records — and `get("b")` now answers
`ErrKeyNotFound`. -/
theorem compaction_loses_visible_key :
    imGet preCompact [97] = .found ⟨0, 1⟩ ∧
    imGet preCompact [98] = .found ⟨1, 1⟩ ∧
    ((createLevel preCompact true).okState.map
      (fun post => (post.sstables, post.levels.map (fun t => t.pairs),
        imGet post [98])))
    = some ([], [[⟨[], ⟨0, 0⟩⟩, ⟨[97], ⟨0, 1⟩⟩]], .keyNotFound) := by
  decide

/-! ### Engine facade, from `internal/engine.go` -/

/-- The engine configuration fields the model needs. -/
structure EngineConfig where
  keySize : Nat
  memtableSizeThreshold : Nat
  compactionThreshold : Nat
  deriving Repr, DecidableEq

/-- The engine's state: index manager, value-heap file, WAL file. -/
structure EngineState where
  im : IMState
  heap : Bytes
  wal : Bytes
  deriving Repr, DecidableEq

/-- Outcome of an engine call. -/
inductive EngineOutcome where
  | err (e : GErr)
  | panicked
  | ok (st : EngineState)
  deriving Repr, DecidableEq

/-- `IndexManager.CompactionCheck`: compact only above the threshold. -/
def compactionCheck (cfg : EngineConfig) (st : IMState) (writeOk : Bool) :
    StepResult :=
  if st.sstables.length ≤ cfg.compactionThreshold then .ok st
  else createLevel st writeOk

/-- `Engine.Set`: validate the key size; append to the WAL; if the memtable
has reached the threshold, flush — a flush error is only logged, and
`e.wal.Clear()` runs unconditionally right after (the comment above it says
"if the flush was successful, clear the WAL", but the call is not guarded) —
then run `CompactionCheck`, panicking on its error; finally store the value
in the heap and insert the returned position into the memtable.  `flushOk`
and `compactOk` abstract the success of the two disk writes. -/
def engineSet (cfg : EngineConfig) (st : EngineState) (key : Key)
    (value : Bytes) (flushOk compactOk : Bool) : EngineOutcome :=
  if cfg.keySize < key.length then .err .keyTooLong
  else
    let wal1 := walAppend st.wal ⟨key, value⟩
    if cfg.memtableSizeThreshold ≤ st.im.memtable.size then
      match imFlush st.im flushOk with
      | .panicked => .panicked
      | .errored im2 | .ok im2 =>
        match compactionCheck cfg im2 compactOk with
        | .panicked => .panicked
        | .errored _ => .panicked
        | .ok im3 =>
          let sp := dmStore st.heap value
          .ok ⟨{ im3 with memtable := avlSet im3.memtable ⟨key, sp.1⟩ },
            sp.2, []⟩
    else
      let sp := dmStore st.heap value
      .ok ⟨{ st.im with memtable := avlSet st.im.memtable ⟨key, sp.1⟩ },
        sp.2, wal1⟩

/-- `Engine.Delete`: validate the key size, append a tombstone record (empty
value) to the WAL, insert the zero position into the memtable. -/
def engineDelete (cfg : EngineConfig) (st : EngineState) (key : Key) :
    EngineOutcome :=
  if cfg.keySize < key.length then .err .keyTooLong
  else
    .ok ⟨{ st.im with memtable := avlSet st.im.memtable ⟨key, ⟨0, 0⟩⟩ },
      st.heap, walAppend st.wal ⟨key, []⟩⟩

/-- The dispatch of `Engine.setEntriesFromWAL` on one replayed entry:
a non-empty value re-applies as a `Set`, an empty one as a `Delete`. -/
inductive ReplayAction where
  | applySet
  | applyDelete
  deriving Repr, DecidableEq

/-- `setEntriesFromWAL`'s per-entry branch: `len(entry.Value) > 0`. -/
def replayAction (e : WALEntry) : ReplayAction :=
  if 0 < e.value.length then .applySet else .applyDelete

/-- Engine state before the failing flush: one pair `("a", (0, 1))` in the
memtable (at the threshold), its record in the WAL, the byte `"1"` in the
heap. -/
def preFlushFail : EngineState :=
  ⟨⟨avlSet emptyAVL ⟨[97], ⟨0, 1⟩⟩, [], [], 1, 1⟩, [49],
    walAppend [] ⟨[97], [49]⟩⟩

set_option maxRecDepth 400000 in
/-- C2: a failed flush does not leave the WAL untouched.  `set("b", "2")`
with the memtable at the threshold triggers a flush whose SSTable write
fails; the memtable keeps its pair and the serial counter stays at 1 (those
parts of the propagation policy hold), but the WAL — which held the records
of both sets — is truncated to empty by the unconditional `e.wal.Clear()`. -/
theorem failed_flush_clears_wal :
    preFlushFail.wal ≠ [] ∧
    (match engineSet ⟨256, 1, 10⟩ preFlushFail [98] [50] false true with
     | .ok st => some (st.wal, st.im.currSerial, st.im.sstables.length,
         avlGet st.im.memtable [97], avlGet st.im.memtable [98])
     | _ => none)
    = some ([], 1, 0, ⟨0, 1⟩, ⟨1, 1⟩) := by
  refine ⟨?_, by decide⟩
  intro h
  have := congrArg List.length h
  simp [walAppend, preFlushFail] at this

/-! ### BST invariant for the AVL memtable -/

/-- The predicate `p` holds of every key in the tree. -/
def ForallKeys (p : Key → Prop) : AVLNode → Prop
  | .nil => True
  | .node k _ l r _ => ForallKeys p l ∧ p k ∧ ForallKeys p r

/-- Search-tree ordering: at every node, all left keys are strictly below
and all right keys strictly above the node's key (in Go string order). -/
def BSTInv : AVLNode → Prop
  | .nil => True
  | .node k _ l r _ =>
    ForallKeys (fun x => keyLt x k = true) l ∧
    ForallKeys (fun x => keyLt k x = true) r ∧ BSTInv l ∧ BSTInv r

theorem forallKeys_imp {p q : Key → Prop} (hpq : ∀ x, p x → q x) :
    ∀ t, ForallKeys p t → ForallKeys q t := by
  intro t
  induction t with
  | nil => intro _; trivial
  | node k v l r h ihl ihr =>
    intro ht
    obtain ⟨hl, hk, hr⟩ := ht
    exact ⟨ihl hl, hpq _ hk, ihr hr⟩

theorem forallKeys_rightRotate (p : Key → Prop) (t : AVLNode)
    (h : ForallKeys p t) : ForallKeys p t.rightRotate := by
  match t with
  | .nil => exact h
  | .node yk yv .nil yr hh => exact h
  | .node yk yv (.node xk xv xl xr xh) yr hh =>
    obtain ⟨⟨hxl, hxk, hxr⟩, hyk, hyr⟩ := h
    exact ⟨hxl, hxk, hxr, hyk, hyr⟩

theorem forallKeys_leftRotate (p : Key → Prop) (t : AVLNode)
    (h : ForallKeys p t) : ForallKeys p t.leftRotate := by
  match t with
  | .nil => exact h
  | .node xk xv xl .nil hh => exact h
  | .node xk xv xl (.node yk yv yl yr yh) hh =>
    obtain ⟨hxl, hxk, ⟨hyl, hyk, hyr⟩⟩ := h
    exact ⟨⟨hxl, hxk, hyl⟩, hyk, hyr⟩

theorem bst_rightRotate (t : AVLNode) (hb : BSTInv t) :
    BSTInv t.rightRotate := by
  match t with
  | .nil => exact hb
  | .node yk yv .nil yr hh => exact hb
  | .node yk yv (.node xk xv xl xr xh) yr hh =>
    obtain ⟨⟨Fxl, hxy, Fxr⟩, Fyr, ⟨Fxl2, Fxr2, bxl, bxr⟩, byr⟩ := hb
    refine ⟨Fxl2, ⟨Fxr2, hxy, ?_⟩, bxl, Fxr, Fyr, bxr, byr⟩
    exact forallKeys_imp (fun x hx => keyLt_trans _ _ _ hxy hx) _ Fyr

theorem bst_leftRotate (t : AVLNode) (hb : BSTInv t) :
    BSTInv t.leftRotate := by
  match t with
  | .nil => exact hb
  | .node xk xv xl .nil hh => exact hb
  | .node xk xv xl (.node yk yv yl yr yh) hh =>
    obtain ⟨Fxl, ⟨Fyl, hxy, Fyr⟩, bxl, ⟨Fyl2, Fyr2, byl, byr⟩⟩ := hb
    refine ⟨⟨?_, hxy, Fyl2⟩, Fyr2, ⟨Fxl, Fyl, bxl, byl⟩, byr⟩
    exact forallKeys_imp (fun x hx => keyLt_trans _ _ _ hx hxy) _ Fxl

theorem get_rightRotate (t : AVLNode) (hb : BSTInv t) (q : Key) :
    t.rightRotate.get q = t.get q := by
  match t with
  | .nil => rfl
  | .node yk yv .nil yr hh => rfl
  | .node yk yv (.node xk xv xl xr xh) yr hh =>
    obtain ⟨⟨Fxl, hxy, Fxr⟩, Fyr, hbl, hbr⟩ := hb
    by_cases h1 : xk = q
    · subst h1
      have hne : ¬ (yk = xk) := by
        intro he
        rw [he, keyLt_irrefl] at hxy
        exact Bool.false_ne_true hxy
      simp [AVLNode.rightRotate, AVLNode.get, hxy, hne]
    · by_cases h2 : keyLt q xk = true
      · have hq : keyLt q yk = true := keyLt_trans _ _ _ h2 hxy
        have hne : ¬ (yk = q) := by
          intro he
          subst he
          rw [keyLt_irrefl] at hq
          exact Bool.false_ne_true hq
        simp [AVLNode.rightRotate, AVLNode.get, hq, hne, h1, h2]
      · simp [AVLNode.rightRotate, AVLNode.get, h1, h2]

theorem get_leftRotate (t : AVLNode) (hb : BSTInv t) (q : Key) :
    t.leftRotate.get q = t.get q := by
  match t with
  | .nil => rfl
  | .node xk xv xl .nil hh => rfl
  | .node xk xv xl (.node yk yv yl yr yh) hh =>
    obtain ⟨Fxl, ⟨Fyl, hxy, Fyr⟩, hbl, hbr⟩ := hb
    by_cases h1 : xk = q
    · subst h1
      have hne : ¬ (yk = xk) := by
        intro he
        rw [he, keyLt_irrefl] at hxy
        exact Bool.false_ne_true hxy
      have hlt : keyLt xk yk = true := hxy
      have hnlt : keyLt yk xk = false := keyLt_asymm _ _ hlt
      simp [AVLNode.leftRotate, AVLNode.get, hne, hlt, hnlt]
    · by_cases h2 : keyLt q xk = true
      · have hq : keyLt q yk = true := keyLt_trans _ _ _ h2 hxy
        have hne : ¬ (yk = q) := by
          intro he
          subst he
          rw [keyLt_irrefl] at hq
          exact Bool.false_ne_true hq
        simp [AVLNode.leftRotate, AVLNode.get, hq, hne, h1, h2]
      · simp [AVLNode.leftRotate, AVLNode.get, h1, h2]

theorem forallKeys_balance (p : Key → Prop) (t : AVLNode) (c : Key)
    (h : ForallKeys p t) : ForallKeys p (t.balance c) := by
  cases t with
  | nil => exact h
  | node k v l r hh =>
    simp only [AVLNode.balance]
    split
    · split
      · split
        · exact forallKeys_rightRotate _ _ h
        · split
          · apply forallKeys_rightRotate
            obtain ⟨hl, hk, hr⟩ := h
            exact ⟨forallKeys_leftRotate _ _ hl, hk, hr⟩
          · exact h
      · exact h
    · split
      · split
        · split
          · exact forallKeys_leftRotate _ _ h
          · split
            · apply forallKeys_leftRotate
              obtain ⟨hl, hk, hr⟩ := h
              exact ⟨hl, hk, forallKeys_rightRotate _ _ hr⟩
            · exact h
        · exact h
      · exact h

theorem bst_balance (t : AVLNode) (c : Key) (hb : BSTInv t) :
    BSTInv (t.balance c) := by
  cases t with
  | nil => exact hb
  | node k v l r hh =>
    simp only [AVLNode.balance]
    split
    · split
      · split
        · exact bst_rightRotate _ hb
        · split
          · apply bst_rightRotate
            obtain ⟨Fl, Fr, hbl, hbr⟩ := hb
            exact ⟨forallKeys_leftRotate _ _ Fl, Fr, bst_leftRotate _ hbl, hbr⟩
          · exact hb
      · exact hb
    · split
      · split
        · split
          · exact bst_leftRotate _ hb
          · split
            · apply bst_leftRotate
              obtain ⟨Fl, Fr, hbl, hbr⟩ := hb
              exact ⟨Fl, forallKeys_rightRotate _ _ Fr, hbl,
                bst_rightRotate _ hbr⟩
            · exact hb
        · exact hb
      · exact hb

theorem get_balance (t : AVLNode) (c q : Key) (hb : BSTInv t) :
    (t.balance c).get q = t.get q := by
  cases t with
  | nil => rfl
  | node k v l r hh =>
    simp only [AVLNode.balance]
    split
    · split
      · split
        · exact get_rightRotate _ hb q
        · split
          · rename_i lk lv ll lr lh hbf hg1 hg2
            obtain ⟨Fl, Fr, hbl, hbr⟩ := hb
            have hb2 : BSTInv (AVLNode.node k v
                (AVLNode.leftRotate (AVLNode.node lk lv ll lr lh)) r hh) :=
              ⟨forallKeys_leftRotate _ _ Fl, Fr, bst_leftRotate _ hbl, hbr⟩
            rw [get_rightRotate _ hb2 q]
            simp only [AVLNode.get]
            rw [get_leftRotate _ hbl q]
            simp only [AVLNode.get]
          · rfl
      · rfl
    · split
      · split
        · split
          · exact get_leftRotate _ hb q
          · split
            · rename_i rk rv rl rr rh hbf1 hbf2 hg1 hg2
              obtain ⟨Fl, Fr, hbl, hbr⟩ := hb
              have hb2 : BSTInv (AVLNode.node k v l
                  (AVLNode.rightRotate (AVLNode.node rk rv rl rr rh)) hh) :=
                ⟨Fl, forallKeys_rightRotate _ _ Fr, hbl,
                  bst_rightRotate _ hbr⟩
              rw [get_leftRotate _ hb2 q]
              simp only [AVLNode.get]
              rw [get_rightRotate _ hbr q]
              simp only [AVLNode.get]
            · rfl
        · rfl
      · rfl

theorem forallKeys_insert (p : Key → Prop) (t : AVLNode) (k : Key)
    (v : Position) (ht : ForallKeys p t) (hk : p k) :
    ForallKeys p (t.insert k v) := by
  induction t with
  | nil => exact ⟨trivial, hk, trivial⟩
  | node nk nv l r h ihl ihr =>
    obtain ⟨hl, hnk, hr⟩ := ht
    simp only [AVLNode.insert]
    split
    · exact forallKeys_balance _ _ _ ⟨ihl hl, hnk, hr⟩
    · split
      · exact forallKeys_balance _ _ _ ⟨hl, hnk, ihr hr⟩
      · exact ⟨hl, hnk, hr⟩

theorem bst_insert (t : AVLNode) (k : Key) (v : Position) (hb : BSTInv t) :
    BSTInv (t.insert k v) := by
  induction t with
  | nil => exact ⟨trivial, trivial, trivial, trivial⟩
  | node nk nv l r h ihl ihr =>
    obtain ⟨Fl, Fr, hbl, hbr⟩ := hb
    simp only [AVLNode.insert]
    split
    · rename_i hlt
      exact bst_balance _ _ ⟨forallKeys_insert _ _ _ _ Fl hlt, Fr, ihl hbl, hbr⟩
    · split
      · rename_i hgt
        exact bst_balance _ _
          ⟨Fl, forallKeys_insert _ _ _ _ Fr hgt, hbl, ihr hbr⟩
      · exact ⟨Fl, Fr, hbl, hbr⟩

theorem get_insert_self (t : AVLNode) (k : Key) (v : Position)
    (hb : BSTInv t) : (t.insert k v).get k = v := by
  induction t with
  | nil => simp [AVLNode.insert, AVLNode.get]
  | node nk nv l r h ihl ihr =>
    obtain ⟨Fl, Fr, hbl, hbr⟩ := hb
    simp only [AVLNode.insert]
    split
    · rename_i hlt
      have hb2 : BSTInv (AVLNode.node nk nv (AVLNode.insert l k v) r
          (1 + max (AVLNode.heightOf (AVLNode.insert l k v))
            (AVLNode.heightOf r))) :=
        ⟨forallKeys_insert _ _ _ _ Fl hlt, Fr, bst_insert _ _ _ hbl, hbr⟩
      rw [get_balance _ _ _ hb2]
      have hne : ¬ (nk = k) := fun he => keyLt_ne k nk hlt he.symm
      simp [AVLNode.get, hne, hlt, ihl hbl]
    · split
      · rename_i hnlt hgt
        have hb2 : BSTInv (AVLNode.node nk nv l (AVLNode.insert r k v)
            (1 + max (AVLNode.heightOf l)
              (AVLNode.heightOf (AVLNode.insert r k v)))) :=
          ⟨Fl, forallKeys_insert _ _ _ _ Fr hgt, hbl, bst_insert _ _ _ hbr⟩
        rw [get_balance _ _ _ hb2]
        have hne : ¬ (nk = k) := fun he => keyLt_ne nk k hgt he
        have hnltf : keyLt k nk = false := by
          cases hkb : keyLt k nk
          · rfl
          · exact absurd hkb hnlt
        simp [AVLNode.get, hne, hnltf, ihr hbr]
      · rename_i hnlt hngt
        have hkeq : k = nk :=
          keyLt_antisymm k nk (by simpa using hnlt) (by simpa using hngt)
        subst hkeq
        simp [AVLNode.get]

theorem get_insert_other (t : AVLNode) (k : Key) (v : Position) (q : Key)
    (hb : BSTInv t) (hq : q ≠ k) : (t.insert k v).get q = t.get q := by
  induction t with
  | nil =>
    have hne : ¬ (k = q) := fun he => hq he.symm
    simp [AVLNode.insert, AVLNode.get, hne]
  | node nk nv l r h ihl ihr =>
    obtain ⟨Fl, Fr, hbl, hbr⟩ := hb
    simp only [AVLNode.insert]
    split
    · rename_i hlt
      have hb2 : BSTInv (AVLNode.node nk nv (AVLNode.insert l k v) r
          (1 + max (AVLNode.heightOf (AVLNode.insert l k v))
            (AVLNode.heightOf r))) :=
        ⟨forallKeys_insert _ _ _ _ Fl hlt, Fr, bst_insert _ _ _ hbl, hbr⟩
      rw [get_balance _ _ _ hb2]
      simp only [AVLNode.get]
      rw [ihl hbl]
    · split
      · rename_i hnlt hgt
        have hb2 : BSTInv (AVLNode.node nk nv l (AVLNode.insert r k v)
            (1 + max (AVLNode.heightOf l)
              (AVLNode.heightOf (AVLNode.insert r k v)))) :=
          ⟨Fl, forallKeys_insert _ _ _ _ Fr hgt, hbl, bst_insert _ _ _ hbr⟩
        rw [get_balance _ _ _ hb2]
        simp only [AVLNode.get]
        rw [ihr hbr]
      · rename_i hnlt hngt
        have hkeq : k = nk :=
          keyLt_antisymm k nk (by simpa using hnlt) (by simpa using hngt)
        subst hkeq
        have hne : ¬ (k = q) := fun he => hq he.symm
        simp [AVLNode.get, hne]

/-! ### The flush precondition (C10) -/

theorem rightRotate_node_ne_nil (k : Key) (v : Position) (l r : AVLNode)
    (h : Nat) : AVLNode.rightRotate (.node k v l r h) ≠ .nil := by
  cases l with
  | nil => exact fun hc => AVLNode.noConfusion hc
  | node lk lv ll lr lh => exact fun hc => AVLNode.noConfusion hc

theorem leftRotate_node_ne_nil (k : Key) (v : Position) (l r : AVLNode)
    (h : Nat) : AVLNode.leftRotate (.node k v l r h) ≠ .nil := by
  cases r with
  | nil => exact fun hc => AVLNode.noConfusion hc
  | node rk rv rl rr rh => exact fun hc => AVLNode.noConfusion hc

theorem balance_node_ne_nil (k : Key) (v : Position) (l r : AVLNode)
    (h : Nat) (c : Key) : AVLNode.balance (.node k v l r h) c ≠ .nil := by
  simp only [AVLNode.balance]
  split
  · split
    · split
      · exact rightRotate_node_ne_nil _ _ _ _ _
      · split
        · exact rightRotate_node_ne_nil _ _ _ _ _
        · exact fun hc => AVLNode.noConfusion hc
    · exact fun hc => AVLNode.noConfusion hc
  · split
    · split
      · split
        · exact leftRotate_node_ne_nil _ _ _ _ _
        · split
          · exact leftRotate_node_ne_nil _ _ _ _ _
          · exact fun hc => AVLNode.noConfusion hc
      · exact fun hc => AVLNode.noConfusion hc
    · exact fun hc => AVLNode.noConfusion hc

theorem insert_ne_nil (t : AVLNode) (k : Key) (v : Position) :
    t.insert k v ≠ .nil := by
  cases t with
  | nil => exact fun hc => AVLNode.noConfusion hc
  | node nk nv l r h =>
    simp only [AVLNode.insert]
    split
    · exact balance_node_ne_nil _ _ _ _ _ _
    · split
      · exact balance_node_ne_nil _ _ _ _ _ _
      · exact fun hc => AVLNode.noConfusion hc

theorem inOrder_node_ne_nil (k : Key) (v : Position) (l r : AVLNode)
    (h : Nat) : AVLNode.inOrder (.node k v l r h) ≠ [] := by
  simp [AVLNode.inOrder]

/-- A memtable reached from `NewAVLMemtable()` by a sequence of `Set` calls
(exactly the states the engine and the WAL replay produce between resets). -/
def applyMemOps (ops : List KVPair) : AVLTable :=
  ops.foldl avlSet emptyAVL

theorem foldl_avlSet_root_nil (ops : List KVPair) (t : AVLTable)
    (ht : t.root = .nil → t.size = 0) :
    (ops.foldl avlSet t).root = .nil → (ops.foldl avlSet t).size = 0 := by
  induction ops generalizing t with
  | nil => exact ht
  | cons p ps ih =>
    simp only [List.foldl_cons]
    apply ih
    intro hroot
    exact absurd hroot (insert_ne_nil _ _ _)

theorem get?_ne_none_of_lt (l : List KVPair) (n : Nat) (h : n < l.length) :
    l.get? n ≠ none := by
  induction l generalizing n with
  | nil => simp at h
  | cons x xs ih =>
    cases n with
    | zero => simp
    | succ m =>
      simp only [List.get?]
      exact ih m (by simpa using h)

/-- C10: `flush` presupposes a non-empty memtable.  On any reachable
memtable: if its item list is empty, the metadata reads `pairs[0]` and
`pairs[len(pairs)-1]` fault (index out of range) before anything else runs —
flush panics rather than returning an error; and whenever `size ≥ 1` both
accesses are in bounds and the flush proceeds to its write (succeeding or
erroring, never faulting). -/
theorem flush_requires_nonempty_memtable (ops : List KVPair)
    (ss lv : List SSTable) (cs ls : Nat) (w : Bool) :
    (avlItems (applyMemOps ops) = [] →
      imFlush ⟨applyMemOps ops, ss, lv, cs, ls⟩ w = .panicked) ∧
    (1 ≤ (applyMemOps ops).size →
      imFlush ⟨applyMemOps ops, ss, lv, cs, ls⟩ w ≠ .panicked) := by
  constructor
  · intro hempty
    simp [imFlush, hempty]
  · intro hsize
    have hroot : (applyMemOps ops).root ≠ .nil := by
      intro h
      have h0 := foldl_avlSet_root_nil ops emptyAVL (fun _ => rfl) h
      simp only [applyMemOps] at hsize
      omega
    have hitems : avlItems (applyMemOps ops) ≠ [] := by
      cases hr : (applyMemOps ops).root with
      | nil => exact absurd hr hroot
      | node k v l r h =>
        simpa [avlItems, hr] using inOrder_node_ne_nil k v l r h
    intro hcon
    obtain ⟨p, ps, hps⟩ : ∃ p ps, avlItems (applyMemOps ops) = p :: ps := by
      cases hl : avlItems (applyMemOps ops) with
      | nil => exact absurd hl hitems
      | cons p ps => exact ⟨p, ps, rfl⟩
    cases hgl : (p :: ps).get? ((p :: ps).length - 1) with
    | none =>
      exact get?_ne_none_of_lt _ _ (by simp) hgl
    | some pn =>
      simp only [imFlush, hps, hgl] at hcon
      cases w with
      | true => simp at hcon
      | false => simp at hcon

/-- C10 witness: the empty memtable panics the flush; the one-pair memtable
does not. -/
theorem flush_requires_nonempty_memtable_witness :
    (avlItems (applyMemOps []) = [] ∧
      imFlush ⟨applyMemOps [], [], [], 1, 1⟩ true = .panicked) ∧
    (1 ≤ (applyMemOps [⟨[97], ⟨0, 1⟩⟩]).size ∧
      imFlush ⟨applyMemOps [⟨[97], ⟨0, 1⟩⟩], [], [], 1, 1⟩ true
        ≠ .panicked) :=
  ⟨⟨by decide,
      (flush_requires_nonempty_memtable [] [] [] 1 1 true).1 (by decide)⟩,
    ⟨by decide,
      (flush_requires_nonempty_memtable [⟨[97], ⟨0, 1⟩⟩] [] [] 1 1 true).2
        (by decide)⟩⟩

/-! ### Empty-value sets behave as deletes (C9) -/

/-- `IndexManager.Get` only observes the memtable through `Contains` and
`Get`, so two states differing only in memtables that agree on those answers
(the value mattering only when `Contains` holds) agree on every lookup. -/
theorem imGet_congr_mem (m1 m2 : AVLTable) (ss lv : List SSTable)
    (cs ls : Nat) (q : Key)
    (hc : avlContains m1 q = avlContains m2 q)
    (hg : avlContains m1 q = true → avlGet m1 q = avlGet m2 q) :
    imGet ⟨m1, ss, lv, cs, ls⟩ q = imGet ⟨m2, ss, lv, cs, ls⟩ q := by
  cases hb1 : avlContains m1 q with
  | false =>
    have hb2 : avlContains m2 q = false := by rw [← hc]; exact hb1
    simp [imGet, hb1, hb2]
  | true =>
    have hb2 : avlContains m2 q = true := by rw [← hc]; exact hb1
    simp [imGet, hb1, hb2, hg hb1]

/-- The freshly opened engine: empty memtable, no tables, empty heap and
WAL. -/
def engineStart : EngineState := ⟨⟨emptyAVL, [], [], 1, 1⟩, [], []⟩

set_option maxRecDepth 100000 in
/-- C9: `set("a", [])` on a fresh engine stores the empty value at a heap
position with `size = 0` (the tombstone encoding), and its outcome is
literally the same state as `delete("a")` produces — the memtable holds the
zero position for the key, the identical record goes to the WAL — and the
subsequent `get("a")` fails with `ErrKeyNotFound` rather than returning an
empty byte string.  But the record both calls append is the bare 256-byte
padded key: `Append` drops the value-length field (the `AppendUint32` result
is discarded), so `Retrieve` hits end-of-file at the length read and replay
on reopen produces no entry at all — the deletion is silently lost, not
re-applied. -/
theorem empty_value_set_lost_on_replay :
    (dmStore [] []).1.size = 0 ∧
    engineSet ⟨256, 1000, 10⟩ engineStart [97] [] true true
      = engineDelete ⟨256, 1000, 10⟩ engineStart [97] ∧
    (match engineSet ⟨256, 1000, 10⟩ engineStart [97] [] true true with
     | .ok s1 => some (imGet s1.im [97], s1.wal, walRetrieve s1.wal)
     | _ => none)
      = some (.keyNotFound, padKey [97], []) := by
  decide

end Goldb